import Mathlib

/-!
Verification of the simulated-annealing TSP core of `theextramile`.

Definitions are shallow embeddings of `src/lib/gem.sa.py` (distance model,
tour energy, swap move, distance-matrix build, main setup) and of the tour
rotation loop of `find_tour` in `src/lib/data.py`.  Real-valued arithmetic
is modelled over `ℝ`; Python list indexing (including negative indices) is
modelled by `pyGet`.
-/

namespace TheExtraMile

/-- Degrees to radians, as `math.radians`. -/
noncomputable def radians (x : ℝ) : ℝ := x * (Real.pi / 180)

/-- `distance(a, b)` from `gem.sa.py`: spherical law of cosines on a sphere of
radius 3963 miles.  A location is a (latitude, longitude) pair in degrees.
The `acos` argument is passed raw — the source neither special-cases `a == b`
nor clamps it. -/
noncomputable def distance (a b : ℝ × ℝ) : ℝ :=
  Real.arccos (Real.sin (radians a.1) * Real.sin (radians b.1) +
      Real.cos (radians a.1) * Real.cos (radians b.1) *
        Real.cos (radians a.2 - radians b.2)) * 3963

/-- Python list read `l[i]`: a negative index counts from the end. -/
def pyGet (l : List Nat) (i : Int) : Nat :=
  if i < 0 then l.getD ((l.length + i).toNat) 0 else l.getD i.toNat 0

/-- `TravellingSalesmanProblem.energy`: `e = 0; for i in range(len(state)):
e += distance_matrix[state[i-1]][state[i]]`. -/
noncomputable def energy (M : Nat → Nat → ℝ) (l : List Nat) : ℝ :=
  (List.range l.length).foldl
    (fun (e : ℝ) (i : Nat) => e + M (pyGet l ((i : Int) - 1)) (pyGet l (i : Int))) 0

/-- The in-place double assignment `state[a], state[b] = state[b], state[a]`
of `TravellingSalesmanProblem.move`: both right-hand sides read the original
list, then position `a` and position `b` are written. -/
def pySwap (l : List Nat) (a b : Nat) : List Nat :=
  (l.set a (l.getD b 0)).set b (l.getD a 0)

/-- `TravellingSalesmanProblem.move` for sampled indices `a`, `b`: records the
initial energy, swaps, and returns the new state together with
`self.energy() - initial_energy`. -/
noncomputable def move (M : Nat → Nat → ℝ) (l : List Nat) (a b : Nat) :
    List Nat × ℝ :=
  (pySwap l a b, energy M (pySwap l a b) - energy M l)

/-- One rotation step of `find_tour` in `data.py`:
`tour_route = np.append(tour_route[1:], tour_route[:1])`. -/
def rotate1 (l : List Nat) : List Nat :=
  match l with
  | [] => []
  | a :: t => t ++ [a]

/-- The directed cyclic edges of a tour: each element paired with its cyclic
successor. -/
def edgeList (l : List Nat) : List (Nat × Nat) := l.zip (rotate1 l)

/-- The (predecessor, element) pairs summed by `energy`:
`(state[i-1], state[i])` for `i in range(n)`. -/
def tourPairs (l : List Nat) : List (Nat × Nat) :=
  (List.range l.length).map
    (fun (i : Nat) => (pyGet l ((i : Int) - 1), pyGet l (i : Int)))

/-- An edge forgetting direction, represented as a sorted pair. -/
def undirect (p : Nat × Nat) : Nat × Nat := if p.1 ≤ p.2 then p else (p.2, p.1)

/-- The rotation loop of `find_tour`:
`while data.gid_county.iloc[tour_route[0]] != start_gid: tour_route =
np.append(tour_route[1:], tour_route[:1])`, with `g` the lookup of the id at
a tour position.  `fuel` bounds the number of iterations; exhausting it
(result `none`) models a loop that has not terminated within that bound. -/
def rotateLoop (g : Nat → Nat) (anchor : Nat) : Nat → List Nat → Option (List Nat)
  | 0, l => if l.head?.map g = some anchor then some l else none
  | fuel + 1, l =>
    if l.head?.map g = some anchor then some l
    else rotateLoop g anchor fuel (rotate1 l)

/-- The rotation loop diverges on `l`: no iteration bound makes it return. -/
def rotateDiverges (g : Nat → Nat) (anchor : Nat) (l : List Nat) : Prop :=
  ∀ fuel, rotateLoop g anchor fuel l = none

/-- Coordinates of the city with the given id, as a read of the `cities`
dict (`dict_data` keys are unique). -/
noncomputable def lookupCoord (cities : List (Nat × ℝ × ℝ)) (i : Nat) : ℝ × ℝ :=
  ((cities.find? (fun c => c.1 == i)).map (fun c => c.2)).getD (0, 0)

/-- The distance-matrix build of `__main__`:
`distance_matrix[ka][kb] = 0.0 if kb == ka else distance(va, vb)` over every
ordered pair of the `cities` dict, read extensionally as a function of the
two ids. -/
noncomputable def buildMatrix (cities : List (Nat × ℝ × ℝ)) : Nat → Nat → ℝ :=
  fun ka kb =>
    if kb = ka then 0 else distance (lookupCoord cities ka) (lookupCoord cities kb)

/-- Number of evaluations of `distance(va, vb)` performed by the
distance-matrix double loop: one per ordered pair with `kb != ka`. -/
def buildCalls (cities : List (Nat × ℝ × ℝ)) : Nat :=
  (cities.map (fun ca => (cities.filter (fun cb => cb.1 != ca.1)).length)).sum

/-- The run setup of `__main__` after the data is loaded:
`init_state = list(cities); random.shuffle(init_state)` followed by the
distance-matrix build, and then directly the annealer construction — the
source contains no validation step and no rejection path.  The shuffle is
passed in explicitly. -/
noncomputable def setup (shuffle : List Nat → List Nat)
    (cities : List (Nat × ℝ × ℝ)) : List Nat × (Nat → Nat → ℝ) :=
  (shuffle (cities.map (fun c => c.1)), buildMatrix cities)

/-- A one-entry location set. -/
noncomputable def oneCity : List (Nat × ℝ × ℝ) := [(7, (0, 0))]

/-- A three-entry location set with distinct ids. -/
noncomputable def threeCities : List (Nat × ℝ × ℝ) :=
  [(0, (0, 0)), (1, (0, 1)), (2, (1, 0))]

/-! ### Distance model lemmas -/

theorem distance_self (a : ℝ × ℝ) : distance a a = 0 := by
  unfold distance
  have h : radians a.2 - radians a.2 = 0 := by ring
  rw [h, Real.cos_zero]
  have h2 : Real.sin (radians a.1) * Real.sin (radians a.1) +
      Real.cos (radians a.1) * Real.cos (radians a.1) * 1 = 1 := by
    have := Real.sin_sq_add_cos_sq (radians a.1)
    nlinarith [this]
  rw [h2, Real.arccos_one, zero_mul]

theorem distance_comm (a b : ℝ × ℝ) : distance a b = distance b a := by
  unfold distance
  have h : Real.sin (radians a.1) * Real.sin (radians b.1) +
      Real.cos (radians a.1) * Real.cos (radians b.1) *
        Real.cos (radians a.2 - radians b.2) =
      Real.sin (radians b.1) * Real.sin (radians a.1) +
      Real.cos (radians b.1) * Real.cos (radians a.1) *
        Real.cos (radians b.2 - radians a.2) := by
    rw [show radians b.2 - radians a.2 = -(radians a.2 - radians b.2) by ring,
      Real.cos_neg]
    ring
  rw [h]

theorem distance_nonneg (a b : ℝ × ℝ) : 0 ≤ distance a b := by
  unfold distance
  have h := Real.arccos_nonneg (Real.sin (radians a.1) * Real.sin (radians b.1) +
    Real.cos (radians a.1) * Real.cos (radians b.1) *
      Real.cos (radians a.2 - radians b.2))
  nlinarith [h]

/-- C9: the distance function is symmetric in its two arguments and never
returns a negative value. -/
theorem distance_symm_nonneg (a b : ℝ × ℝ) :
    distance a b = distance b a ∧ 0 ≤ distance a b :=
  ⟨distance_comm a b, distance_nonneg a b⟩

/-- C3: in the exact-real model of `distance`, evaluating at the concrete
failing input (both locations equal to latitude 25.00109, longitude 0) gives
exactly 0 — the value the claim requires.  The Python source, which neither
special-cases `a == b` nor clamps the `acos` argument, raises
`ValueError: math domain error` here instead, because `sin(lat)**2 +
cos(lat)**2` rounds to 1.0000000000000002 in IEEE double precision. -/
theorem distance_self_zero_failing_input :
    distance (25.00109, 0) (25.00109, 0) = 0 :=
  distance_self (25.00109, 0)

/-! ### Swap lemmas -/

theorem cons_set_perm (t : List Nat) (j x : Nat) (hj : j < t.length) :
    (t.getD j 0 :: t.set j x).Perm (x :: t) := by
  induction t generalizing j with
  | nil => simp at hj
  | cons y s ih =>
    cases j with
    | zero =>
      simpa using List.Perm.swap x y s
    | succ j' =>
      simp only [List.getD_cons_succ, List.set_cons_succ]
      have h1 : (s.getD j' 0 :: y :: s.set j' x).Perm (y :: s.getD j' 0 :: s.set j' x) :=
        List.Perm.swap _ _ _
      have h2 : (y :: s.getD j' 0 :: s.set j' x).Perm (y :: x :: s) :=
        (ih j' (by simpa using hj)).cons y
      exact (h1.trans h2).trans (List.Perm.swap _ _ _)

theorem set_getD_self (l : List Nat) (n : Nat) (h : n < l.length) :
    l.set n (l.getD n 0) = l := by
  induction l generalizing n with
  | nil => simp at h
  | cons x t ih =>
    cases n with
    | zero => simp
    | succ n' =>
      simp only [List.getD_cons_succ, List.set_cons_succ]
      rw [ih n' (by simpa using h)]

theorem pySwap_perm (l : List Nat) (a b : Nat) (ha : a < l.length)
    (hb : b < l.length) : (pySwap l a b).Perm l := by
  induction l generalizing a b with
  | nil => simp at ha
  | cons x t ih =>
    cases a with
    | zero =>
      cases b with
      | zero => simp [pySwap]
      | succ j =>
        simp only [pySwap, List.getD_cons_succ, List.getD_cons_zero,
          List.set_cons_zero, List.set_cons_succ]
        exact cons_set_perm t j x (by simpa using hb)
    | succ i =>
      cases b with
      | zero =>
        simp only [pySwap, List.getD_cons_succ, List.getD_cons_zero,
          List.set_cons_zero, List.set_cons_succ]
        exact cons_set_perm t i x (by simpa using ha)
      | succ j =>
        simp only [pySwap, List.getD_cons_succ, List.set_cons_succ]
        exact (ih i j (by simpa using ha) (by simpa using hb)).cons x

/-- C1: a move (swapping the ids at two positions) sends a tour state that is
a permutation of the full id set to another permutation of the full id set —
no id duplicated, none omitted. -/
theorem move_preserves_permutation (full l : List Nat) (a b : Nat)
    (hl : l.Perm full) (ha : a < l.length) (hb : b < l.length) :
    (pySwap l a b).Perm full ∧ (∀ x, x ∈ pySwap l a b ↔ x ∈ full) ∧
      (full.Nodup → (pySwap l a b).Nodup) := by
  have hp := (pySwap_perm l a b ha hb).trans hl
  exact ⟨hp, fun x => hp.mem_iff, fun h => hp.nodup_iff.mpr h⟩

theorem move_preserves_permutation_witness :
    (([2, 0, 1] : List Nat).Perm [0, 1, 2] ∧ 0 < ([2, 0, 1] : List Nat).length ∧
      2 < ([2, 0, 1] : List Nat).length) ∧ (pySwap [2, 0, 1] 0 2).Perm [0, 1, 2] :=
  ⟨⟨by decide, by decide, by decide⟩,
    (move_preserves_permutation [0, 1, 2] [2, 0, 1] 0 2 (by decide) (by decide)
      (by decide)).1⟩

/-- C10: a move whose two sampled positions coincide leaves the state
unchanged and returns an energy delta of exactly zero, and the returned
delta of any move equals the full recompute of the energy after the swap
minus the energy before it. -/
theorem move_same_position_noop (M : Nat → Nat → ℝ) (l : List Nat) (a : Nat)
    (ha : a < l.length) :
    (move M l a a).1 = l ∧ (move M l a a).2 = 0 ∧
      ∀ b, (move M l a b).2 = energy M (move M l a b).1 - energy M l := by
  have hswap : pySwap l a a = l := by
    unfold pySwap
    rw [List.set_set]
    exact set_getD_self l a ha
  refine ⟨hswap, ?_, fun b => rfl⟩
  show energy M (pySwap l a a) - energy M l = 0
  rw [hswap, sub_self]

theorem move_same_position_noop_witness :
    0 < ([5, 6] : List Nat).length ∧
      (move (fun _ _ => (0 : ℝ)) [5, 6] 0 0).1 = [5, 6] ∧
      (move (fun _ _ => (0 : ℝ)) [5, 6] 0 0).2 = 0 :=
  ⟨by decide,
    (move_same_position_noop (fun _ _ => (0 : ℝ)) [5, 6] 0 (by decide)).1,
    (move_same_position_noop (fun _ _ => (0 : ℝ)) [5, 6] 0 (by decide)).2.1⟩

/-! ### Energy and cyclic edges -/

theorem rotate1_nil : rotate1 [] = [] := rfl

theorem rotate1_cons (a : Nat) (t : List Nat) : rotate1 (a :: t) = t ++ [a] := rfl

theorem pyGet_natCast (l : List Nat) (i : Nat) : pyGet l (i : Int) = l.getD i 0 := by
  unfold pyGet
  rw [if_neg (by omega : ¬ ((i : Int) < 0)), Int.toNat_natCast]

theorem pyGet_succ_sub_one (l : List Nat) (i : Nat) :
    pyGet l (((i + 1 : Nat) : Int) - 1) = l.getD i 0 := by
  have h : ((i + 1 : Nat) : Int) - 1 = (i : Int) := by push_cast; ring
  rw [h, pyGet_natCast]

theorem pyGet_neg_one (l : List Nat) :
    pyGet l (((0 : Nat) : Int) - 1) = l.getD (l.length - 1) 0 := by
  unfold pyGet
  rw [if_pos (by omega : ((0 : Nat) : Int) - 1 < 0)]
  congr 1
  omega

theorem foldl_add_sum (f : Nat → ℝ) (L : List Nat) (init : ℝ) :
    L.foldl (fun e i => e + f i) init = init + (L.map f).sum := by
  induction L generalizing init with
  | nil => simp
  | cons x t ih =>
    simp only [List.foldl_cons, List.map_cons, List.sum_cons]
    rw [ih]
    ring

theorem energy_eq_tourPairs_sum (M : Nat → Nat → ℝ) (l : List Nat) :
    energy M l = ((tourPairs l).map (fun p => M p.1 p.2)).sum := by
  have h : energy M l = 0 + ((List.range l.length).map
      (fun (i : Nat) => M (pyGet l ((i : Int) - 1)) (pyGet l (i : Int)))).sum :=
    foldl_add_sum (fun (i : Nat) => M (pyGet l ((i : Int) - 1)) (pyGet l (i : Int)))
      (List.range l.length) 0
  rw [h, zero_add]
  unfold tourPairs
  rw [List.map_map]
  rfl

theorem range_map_consec (l : List Nat) :
    (List.range (l.length - 1)).map (fun i => (l.getD i 0, l.getD (i + 1) 0)) =
      l.zip l.tail := by
  induction l with
  | nil => simp
  | cons a t ih =>
    cases t with
    | nil => simp
    | cons b s =>
      have ih' := ih
      simp only [List.length_cons, Nat.succ_sub_one, List.tail_cons] at ih' ⊢
      rw [List.range_succ_eq_map, List.map_cons, List.map_map,
        List.zip_cons_cons]
      congr 1

theorem tourPairs_cons (a : Nat) (t : List Nat) :
    tourPairs (a :: t) = ((a :: t).getD t.length 0, a) :: (a :: t).zip t := by
  unfold tourPairs
  rw [List.length_cons, List.range_succ_eq_map, List.map_cons, List.map_map]
  congr 1
  · rw [pyGet_neg_one, pyGet_natCast]
    simp [List.length_cons]
  · have h : (a :: t).zip t =
        (List.range ((a :: t).length - 1)).map
          (fun i => ((a :: t).getD i 0, (a :: t).getD (i + 1) 0)) := by
      rw [range_map_consec, List.tail_cons]
    rw [h]
    simp only [List.length_cons, Nat.succ_sub_one]
    apply List.map_congr_left
    intro i _
    simp only [Function.comp_apply, Nat.succ_eq_add_one]
    rw [pyGet_succ_sub_one, pyGet_natCast]

theorem zip_cons_append (t : List Nat) (a c : Nat) :
    (a :: t).zip (t ++ [c]) = (a :: t).zip t ++ [((a :: t).getD t.length 0, c)] := by
  induction t generalizing a with
  | nil => simp
  | cons b s ih =>
    rw [List.cons_append, List.zip_cons_cons, ih b, List.zip_cons_cons]
    simp [List.getD_cons_succ]

theorem tourPairs_perm_edgeList (l : List Nat) :
    (tourPairs l).Perm (edgeList l) := by
  cases l with
  | nil => simp [tourPairs, edgeList]
  | cons a t =>
    rw [tourPairs_cons]
    have h : edgeList (a :: t) =
        (a :: t).zip t ++ [((a :: t).getD t.length 0, a)] := by
      show (a :: t).zip (t ++ [a]) = _
      exact zip_cons_append t a a
    rw [h]
    exact (List.perm_append_singleton _ _).symm

theorem energy_eq_edge_sum (M : Nat → Nat → ℝ) (l : List Nat) :
    energy M l = ((edgeList l).map (fun p => M p.1 p.2)).sum := by
  rw [energy_eq_tourPairs_sum]
  exact ((tourPairs_perm_edgeList l).map _).sum_eq

theorem edgeList_rotate1_perm (l : List Nat) :
    (edgeList (rotate1 l)).Perm (edgeList l) := by
  cases l with
  | nil => exact List.Perm.refl _
  | cons a t =>
    cases t with
    | nil => exact List.Perm.refl _
    | cons b s =>
      have h1 : edgeList (rotate1 (a :: b :: s)) =
          (b :: s).zip (s ++ [a]) ++ [(a, b)] := by
        show ((b :: s) ++ [a]).zip ((s ++ [a]) ++ [b]) = _
        rw [List.zip_append (by simp)]
        simp
      have h2 : edgeList (a :: b :: s) = (a, b) :: (b :: s).zip (s ++ [a]) := by
        show (a :: b :: s).zip ((b :: s) ++ [a]) = _
        simp [List.zip_cons_cons]
      rw [h1, h2]
      exact List.perm_append_singleton _ _

theorem energy_rotate1 (M : Nat → Nat → ℝ) (l : List Nat) :
    energy M (rotate1 l) = energy M l := by
  rw [energy_eq_edge_sum, energy_eq_edge_sum]
  exact ((edgeList_rotate1_perm l).map _).sum_eq

theorem rotate1_eq_rotate (l : List Nat) : rotate1 l = l.rotate 1 := by
  cases l with
  | nil => simp [rotate1_nil]
  | cons a t => rw [rotate1_cons, List.rotate_cons_succ, List.rotate_zero]

theorem energy_rotate (M : Nat → Nat → ℝ) (l : List Nat) (k : Nat) :
    energy M (l.rotate k) = energy M l := by
  induction k with
  | zero => rw [List.rotate_zero]
  | succ k ih =>
    have h : l.rotate (k + 1) = rotate1 (l.rotate k) := by
      rw [rotate1_eq_rotate, List.rotate_rotate]
    rw [h, energy_rotate1, ih]

theorem edgeList_rotate_perm (l : List Nat) (k : Nat) :
    (edgeList (l.rotate k)).Perm (edgeList l) := by
  induction k with
  | zero => rw [List.rotate_zero]
  | succ k ih =>
    have h : l.rotate (k + 1) = rotate1 (l.rotate k) := by
      rw [rotate1_eq_rotate, List.rotate_rotate]
    rw [h]
    exact (edgeList_rotate1_perm _).trans ih

/-- C2: the engine's energy equals the sum over `i` in `[0, n)` of
`distance_matrix[state[(i - 1) mod n]][state[i]]` — the cyclic tour length
including the wrap-around edge from the last location back to the first. -/
theorem energy_eq_cyclic_sum (M : Nat → Nat → ℝ) (l : List Nat) :
    energy M l = ((List.range l.length).map
      (fun (i : Nat) =>
        M (l.getD ((i + l.length - 1) % l.length) 0) (l.getD i 0))).sum := by
  have h : energy M l = 0 + ((List.range l.length).map
      (fun (i : Nat) => M (pyGet l ((i : Int) - 1)) (pyGet l (i : Int)))).sum :=
    foldl_add_sum (fun (i : Nat) => M (pyGet l ((i : Int) - 1)) (pyGet l (i : Int)))
      (List.range l.length) 0
  rw [h, zero_add]
  apply congrArg List.sum
  apply List.map_congr_left
  intro i hi
  have hin : i < l.length := List.mem_range.mp hi
  rw [pyGet_natCast]
  cases i with
  | zero =>
    rw [pyGet_neg_one]
    have hmod : (0 + l.length - 1) % l.length = l.length - 1 := by
      rw [Nat.zero_add]
      exact Nat.mod_eq_of_lt (by omega)
    rw [hmod]
  | succ j =>
    rw [pyGet_succ_sub_one]
    have hmod : (j + 1 + l.length - 1) % l.length = j := by
      rw [show j + 1 + l.length - 1 = j + l.length by omega, Nat.add_mod_right]
      exact Nat.mod_eq_of_lt (by omega)
    rw [hmod]

/-! ### The finalizer rotation loop -/

theorem exists_first_match (g : Nat → Nat) (anchor : Nat) (l : List Nat)
    (h : anchor ∈ l.map g) :
    ∃ k, k < l.length ∧ (∀ i, i < k → g (l.getD i 0) ≠ anchor) ∧
      g (l.getD k 0) = anchor := by
  induction l with
  | nil => simp at h
  | cons a t ih =>
    by_cases ha : g a = anchor
    · exact ⟨0, by simp, fun i hi => absurd hi (Nat.not_lt_zero i), by simpa using ha⟩
    · have h' : anchor ∈ t.map g := by
        rcases List.mem_map.mp h with ⟨x, hx, hgx⟩
        rcases List.mem_cons.mp hx with hxa | hxt
        · exact absurd (hxa ▸ hgx) ha
        · exact List.mem_map.mpr ⟨x, hxt, hgx⟩
      rcases ih h' with ⟨k, hk, hpre, hmatch⟩
      refine ⟨k + 1, by simpa using hk, ?_, by simpa using hmatch⟩
      intro i hi
      cases i with
      | zero => simpa using ha
      | succ i' =>
        rw [List.getD_cons_succ]
        exact hpre i' (by omega)

theorem rotateLoop_finds (g : Nat → Nat) (anchor : Nat) :
    ∀ k fuel l, k ≤ fuel → k < l.length →
      (∀ i, i < k → g (l.getD i 0) ≠ anchor) → g (l.getD k 0) = anchor →
      rotateLoop g anchor fuel l = some (l.rotate k) := by
  intro k
  induction k with
  | zero =>
    intro fuel l _ hlen _ hmatch
    cases l with
    | nil => simp at hlen
    | cons a t =>
      have hga : g a = anchor := by
        simpa using hmatch
      cases fuel with
      | zero => simp [rotateLoop, hga]
      | succ f => simp [rotateLoop, hga]
  | succ k ih =>
    intro fuel l hfuel hlen hpre hmatch
    cases l with
    | nil => simp at hlen
    | cons a t =>
      have hhead : ¬ ((a :: t).head?.map g = some anchor) := by
        have h0 := hpre 0 (Nat.succ_pos k)
        simpa using h0
      cases fuel with
      | zero => omega
      | succ f =>
        have hkt : k < t.length := by
          simpa using hlen
        have hrec := ih f (t ++ [a]) (by omega)
          (by simpa using Nat.lt_succ_of_lt hkt)
          (fun i hi => by
            rw [List.getD_append _ _ _ _ (by omega)]
            have := hpre (i + 1) (by omega)
            rwa [List.getD_cons_succ] at this)
          (by
            rw [List.getD_append _ _ _ _ hkt]
            have := hmatch
            rwa [List.getD_cons_succ] at this)
        simp only [rotateLoop, if_neg hhead, rotate1_cons]
        rw [hrec, ← List.rotate_cons_succ]

theorem rotateLoop_some_head (g : Nat → Nat) (anchor : Nat) :
    ∀ fuel l l', rotateLoop g anchor fuel l = some l' →
      l'.head?.map g = some anchor := by
  intro fuel
  induction fuel with
  | zero =>
    intro l l' h
    by_cases hc : l.head?.map g = some anchor
    · simp only [rotateLoop, if_pos hc, Option.some.injEq] at h
      rwa [← h]
    · simp [rotateLoop, hc] at h
  | succ f ih =>
    intro l l' h
    by_cases hc : l.head?.map g = some anchor
    · simp only [rotateLoop, if_pos hc, Option.some.injEq] at h
      rwa [← h]
    · simp only [rotateLoop, if_neg hc] at h
      exact ih _ _ h

/-- C4: whenever the anchor id occurs in the tour, the finalizer rotation
loop terminates within `length` steps and returns a rotation of the tour:
the relative cyclic order is preserved, the total tour length under any
distance matrix is unchanged, the multiset of undirected cyclic edges is
unchanged, and the anchor occupies position 0. -/
theorem rotate_preserves_tour (g : Nat → Nat) (l : List Nat) (anchor : Nat)
    (h : anchor ∈ l.map g) :
    ∃ l', rotateLoop g anchor l.length l = some l' ∧ (∃ k, l' = l.rotate k) ∧
      (∀ M, energy M l' = energy M l) ∧
      ((edgeList l').map undirect).Perm ((edgeList l).map undirect) ∧
      l'.head?.map g = some anchor := by
  rcases exists_first_match g anchor l h with ⟨k, hk, hpre, hmatch⟩
  have hloop := rotateLoop_finds g anchor k l.length l (le_of_lt hk) hk hpre hmatch
  exact ⟨l.rotate k, hloop, ⟨k, rfl⟩, fun M => energy_rotate M l k,
    (edgeList_rotate_perm l k).map undirect,
    rotateLoop_some_head g anchor l.length l _ hloop⟩

theorem rotate_preserves_tour_witness :
    2 ∈ ([1, 2, 3] : List Nat).map (fun x => x) ∧
      (∃ l', rotateLoop (fun x => x) 2 ([1, 2, 3] : List Nat).length [1, 2, 3] =
          some l' ∧ (∃ k, l' = ([1, 2, 3] : List Nat).rotate k) ∧
        (∀ M, energy M l' = energy M [1, 2, 3]) ∧
        ((edgeList l').map undirect).Perm ((edgeList [1, 2, 3]).map undirect) ∧
        l'.head?.map (fun x => x) = some 2) :=
  ⟨by decide, rotate_preserves_tour (fun x => x) [1, 2, 3] 2 (by decide)⟩

theorem rotate1_perm (l : List Nat) : (rotate1 l).Perm l := by
  cases l with
  | nil => exact List.Perm.refl _
  | cons a t => exact List.perm_append_singleton a t

theorem head_not_match (g : Nat → Nat) (anchor : Nat) (l : List Nat)
    (h : anchor ∉ l.map g) : ¬ (l.head?.map g = some anchor) := by
  cases l with
  | nil => simp
  | cons a t =>
    intro hc
    have hga : g a = anchor := by
      simpa using hc
    exact h (by simp [hga])

theorem rotateLoop_none_of_not_mem (g : Nat → Nat) (anchor : Nat) :
    ∀ fuel l, anchor ∉ l.map g → rotateLoop g anchor fuel l = none := by
  intro fuel
  induction fuel with
  | zero =>
    intro l h
    simp only [rotateLoop, if_neg (head_not_match g anchor l h)]
  | succ f ih =>
    intro l h
    have h' : anchor ∉ (rotate1 l).map g := by
      intro hmem
      exact h (((rotate1_perm l).map g).mem_iff.mp hmem)
    simp only [rotateLoop, if_neg (head_not_match g anchor l h)]
    exact ih _ h'

/-- C5 (amended): if the anchor id is absent from the tour, the finalizer's
rotation loop never terminates — for every iteration bound it fails to
produce a result, so no NotFound condition is ever surfaced to the caller. -/
theorem rotate_absent_never_returns (g : Nat → Nat) (anchor : Nat)
    (l : List Nat) (h : anchor ∉ l.map g) : rotateDiverges g anchor l :=
  fun fuel => rotateLoop_none_of_not_mem g anchor fuel l h

theorem rotate_absent_never_returns_witness :
    2 ∉ ([0, 1] : List Nat).map (fun x => x) ∧
      rotateDiverges (fun x => x) 2 [0, 1] :=
  ⟨by decide, rotate_absent_never_returns (fun x => x) 2 [0, 1] (by decide)⟩

/-- C5 counterexample: for the concrete tour `[0, 1]` with the absent anchor
id `2`, the rotation loop of `find_tour` returns no result under any
iteration bound: it fails to terminate, and no NotFound condition is
surfaced to the caller — refuting the claim that an absent anchor is
reported rather than looping forever. -/
theorem rotate_absent_counterexample : rotateDiverges (fun x => x) 2 [0, 1] :=
  fun fuel => rotateLoop_none_of_not_mem (fun x => x) 2 fuel [0, 1] (by decide)

/-! ### Setup and distance-matrix build -/

theorem energy_singleton (M : Nat → Nat → ℝ) (x : Nat) : energy M [x] = M x x := by
  have h : energy M [x] = 0 + ((List.range ([x] : List Nat).length).map
      (fun (i : Nat) => M (pyGet [x] ((i : Int) - 1)) (pyGet [x] (i : Int)))).sum :=
    foldl_add_sum _ _ _
  rw [h]
  have h1 : List.range ([x] : List Nat).length = [0] := rfl
  rw [h1]
  simp only [List.map_cons, List.map_nil, List.sum_cons, List.sum_nil]
  rw [pyGet_neg_one, pyGet_natCast]
  simp

/-- C6 (amended): the core performs no input validation: a Location Set
with fewer than 2 entries — with any coordinates whatsoever, in range or
not — is not rejected; the setup proceeds directly to a run state over its
ids and the engine computes that state's energy (0 for one location). -/
theorem setup_no_rejection (c : Nat × ℝ × ℝ) :
    (setup id [c]).1 = [c.1] ∧ energy (setup id [c]).2 (setup id [c]).1 = 0 := by
  constructor
  · rfl
  · show energy (buildMatrix [c]) [c.1] = 0
    rw [energy_singleton]
    simp [buildMatrix]

/-- C6 counterexample: the single-location input (id 7, coordinates (0, 0))
is accepted rather than rejected: the setup enters the run with tour state
`[7]` and the engine computes its energy, 0 — no rejection is surfaced
before `Running` for an input with fewer than 2 entries. -/
theorem setup_singleton_counterexample :
    (setup id oneCity).1 = [7] ∧ energy (setup id oneCity).2 [7] = 0 := by
  constructor
  · rfl
  · show energy (buildMatrix oneCity) [7] = 0
    rw [energy_singleton]
    simp [buildMatrix]

theorem filter_ne_length (cities : List (Nat × ℝ × ℝ))
    (h : (cities.map (fun c => c.1)).Nodup) :
    ∀ ca ∈ cities, (cities.filter (fun cb => cb.1 != ca.1)).length =
      cities.length - 1 := by
  induction cities with
  | nil =>
    intro ca hca
    simp at hca
  | cons c rest ih =>
    rw [List.map_cons, List.nodup_cons] at h
    rcases h with ⟨hc1, hrest⟩
    intro ca hca
    rcases List.mem_cons.mp hca with hceq | hmem
    · subst hceq
      have hhead : (ca.1 != ca.1) = false := by
        simp
      have hall : rest.filter (fun cb => cb.1 != ca.1) = rest :=
        List.filter_eq_self.mpr (fun cb hcb => by
          have hmemmap : cb.1 ∈ rest.map (fun c => c.1) :=
            List.mem_map.mpr ⟨cb, hcb, rfl⟩
          rw [bne_iff_ne]
          intro heq
          exact hc1 (heq ▸ hmemmap))
      rw [List.filter_cons, hhead]
      simp [hall]
    · have hhead : (c.1 != ca.1) = true := by
        rw [bne_iff_ne]
        intro heq
        exact hc1 (heq ▸ List.mem_map.mpr ⟨ca, hmem, rfl⟩)
      rw [List.filter_cons, hhead, if_pos rfl, List.length_cons,
        ih hrest ca hmem]
      have hpos : 0 < rest.length :=
        List.length_pos.mpr (List.ne_nil_of_mem hmem)
      simp only [List.length_cons]
      omega

theorem buildCalls_eq (cities : List (Nat × ℝ × ℝ))
    (h : (cities.map (fun c => c.1)).Nodup) :
    buildCalls cities = cities.length * cities.length - cities.length := by
  unfold buildCalls
  have hmap : cities.map
      (fun ca => (cities.filter (fun cb => cb.1 != ca.1)).length) =
      cities.map (fun _ => cities.length - 1) :=
    List.map_congr_left (fun ca hca => filter_ne_length cities h ca hca)
  rw [hmap, List.map_const', List.sum_replicate, smul_eq_mul]
  generalize cities.length = n
  cases n with
  | zero => simp
  | succ m =>
    simp only [Nat.succ_sub_one]
    rw [show (m + 1) * (m + 1) = (m + 1) * m + (m + 1) from by ring,
      Nat.add_sub_cancel]

/-- C7 (amended): the distance-matrix build calls the Distance Model once
for every ordered pair of distinct ids — `n² − n` calls for `n` distinct
ids, each unordered pair computed independently twice rather than computed
once and mirrored — and the resulting matrix nevertheless satisfies
`distance[i][j] == distance[j][i]` and `distance[i][i] == 0` for all
indices. -/
theorem buildMatrix_ordered_calls_symm_diag (cities : List (Nat × ℝ × ℝ))
    (i j : Nat) :
    buildMatrix cities i j = buildMatrix cities j i ∧
      buildMatrix cities i i = 0 ∧
      ((cities.map (fun c => c.1)).Nodup →
        buildCalls cities = cities.length * cities.length - cities.length) := by
  refine ⟨?_, by simp [buildMatrix], fun h => buildCalls_eq cities h⟩
  unfold buildMatrix
  by_cases hij : i = j
  · subst hij
    rfl
  · rw [if_neg (fun h' => hij h'.symm), if_neg hij]
    exact distance_comm _ _

theorem buildMatrix_ordered_calls_witness :
    (threeCities.map (fun c => c.1)).Nodup ∧
      (buildMatrix threeCities 0 1 = buildMatrix threeCities 1 0 ∧
        buildMatrix threeCities 0 0 = 0 ∧
        ((threeCities.map (fun c => c.1)).Nodup →
          buildCalls threeCities =
            threeCities.length * threeCities.length - threeCities.length)) :=
  ⟨by decide, buildMatrix_ordered_calls_symm_diag threeCities 0 1⟩

/-- C7 counterexample: for the three-location set the double loop evaluates
the Distance Model 6 times — once per ordered pair of distinct ids — where
calling it exactly once per unordered pair of distinct locations would be 3
evaluations. -/
theorem buildCalls_counterexample :
    buildCalls threeCities = 6 ∧ (6 : Nat) ≠ 3 :=
  ⟨rfl, by decide⟩

end TheExtraMile
